import Mathlib

/-!
Verification of the static-file serving subsystem of the gotham framework
(`gotham/src/handler/static_file.rs`), as a shallow embedding.

Modelling conventions:
- A filesystem path (`PathBuf`) is the list of its component names
  (`List String`); joining is list append.
- A raw (unparsed) path string is a `List Char`; `/` is the separator
  (Unix rules: `\` is an ordinary character).
- `SystemTime` is the signed number of nanoseconds since the Unix epoch
  (`Int`); `io::Result<SystemTime>` is `Option Int` with `none` for an error.
- HTTP dates (`HttpDate`) carry whole seconds (`Int`).
-/

namespace StaticFile

/-- Unix `std::path::Component` (the `Prefix` variant never occurs on Unix). -/
inductive Component where
  | rootDir
  | curDir
  | parentDir
  | normal (s : String)
  deriving DecidableEq

/-- Split a character list at every occurrence of `sep`, keeping empty
pieces, as `str::split` does: splitting `a/b` at `/` gives `a` and `b`,
splitting the empty list gives one empty piece. -/
def splitOnChar (sep : Char) (l : List Char) : List (List Char) :=
  l.foldr
    (fun c acc =>
      match acc with
      | [] => [[c]]
      | cur :: rest => if c = sep then [] :: cur :: rest else (c :: cur) :: rest)
    [[]]

/-- Classification of one separator-free token by `Path::components`:
empty tokens and `.` tokens vanish (`.` survives only at the very front,
see `leadingComponents`), `..` is `ParentDir`, anything else is `Normal`. -/
def tokenToComponent (t : List Char) : Option Component :=
  if t = [] then none
  else if t = ['.'] then none
  else if t = ['.', '.'] then some Component.parentDir
  else some (Component.normal (String.mk t))

/-- The leading pseudo-component `Path::components` emits before the tokens:
`RootDir` for an absolute path, `CurDir` for a relative path whose first
token is `.`, nothing otherwise. -/
def leadingComponents (l : List Char) : List Component :=
  match l with
  | '/' :: _ => [Component.rootDir]
  | _ =>
    match splitOnChar '/' l with
    | ['.'] :: _ => [Component.curDir]
    | _ => []

/-- Unix `Path::components` of a raw path string. -/
def componentsOfPath (l : List Char) : List Component :=
  leadingComponents l ++ (splitOnChar '/' l).filterMap tokenToComponent

/-- `PathBuf::push`: an absolute argument replaces the whole buffer,
otherwise a separator (on a non-empty buffer) and the argument are
appended. -/
def pushPath (buf : List Char) (part : String) : List Char :=
  match part.data with
  | '/' :: _ => part.data
  | _ => if buf = [] then part.data else buf ++ '/' :: part.data

/-- `PathBuf::from_iter(parts)`: fold `push` over the decoded URL segments,
starting from the empty buffer. -/
def pathOfParts (parts : List String) : List Char :=
  parts.foldl pushPath []

/-- The fold body of `normalize_path` (static_file.rs lines 232-245): a
`Normal` component is pushed onto the accumulating `PathBuf`, `ParentDir`
pops its last component (`PathBuf::pop` is a no-op on an empty buffer),
and every other component (`RootDir`, `CurDir`) is discarded. -/
def normStep (result : List String) (c : Component) : List String :=
  match c with
  | Component.normal x => result ++ [x]
  | Component.parentDir => result.dropLast
  | _ => result

/-- `normalize_path` (static_file.rs lines 232-245): left fold of `normStep`
over the components, starting from the empty `PathBuf`. -/
def normalize_path (cs : List Component) : List String :=
  cs.foldl normStep []

/-- `FileSystemHandler::handle` (static_file.rs lines 77-85): the path handed
to `create_file_response` is the configured root extended with the
normalized components of the `PathBuf` collected from the request's
segments.  `base_path.extend` pushes each normalized component name, which
is list append in the component-list model. -/
def fileSystemHandlerPath (root parts : List String) : List String :=
  root ++ normalize_path (componentsOfPath (pathOfParts parts))

/-- `q` lies strictly below `r`: `r` is a proper prefix of `q`'s component
list. -/
def strictDescendant (r q : List String) : Bool :=
  List.isPrefixOf r q && decide (r.length < q.length)

/-- `std::fs::Metadata`, restricted to what `static_file.rs` reads: `len()`
in bytes and `modified()` as nanoseconds since the Unix epoch (`none`
models the `io::Result` error case). -/
structure Metadata where
  len : Nat
  modified : Option Int
  deriving DecidableEq

/-- `hyper::header::EntityTag`: the weakness flag and the opaque tag text
(as a character list). -/
structure EntityTag where
  weak : Bool
  tag : List Char
  deriving DecidableEq

/-- One lower-case hexadecimal digit, as `format!` with `{:x}` renders it. -/
def hexDigitChar (d : Nat) : Char :=
  match d with
  | 0 => '0' | 1 => '1' | 2 => '2' | 3 => '3'
  | 4 => '4' | 5 => '5' | 6 => '6' | 7 => '7'
  | 8 => '8' | 9 => '9' | 10 => 'a' | 11 => 'b'
  | 12 => 'c' | 13 => 'd' | 14 => 'e' | 15 => 'f'
  | _ => '*'

/-- Value of a lower-case hexadecimal digit (16 for a non-digit). -/
def hexVal (c : Char) : Nat :=
  match c with
  | '0' => 0 | '1' => 1 | '2' => 2 | '3' => 3
  | '4' => 4 | '5' => 5 | '6' => 6 | '7' => 7
  | '8' => 8 | '9' => 9 | 'a' => 10 | 'b' => 11
  | 'c' => 12 | 'd' => 13 | 'e' => 14 | 'f' => 15
  | _ => 16

/-- Big-endian hexadecimal digits of `n`, empty for zero; the first
argument is fuel, which suffices whenever `n` is at most the fuel. -/
def hexCharsAux : Nat → Nat → List Char
  | 0, _ => []
  | fuel + 1, n =>
    if n = 0 then [] else hexCharsAux fuel (n / 16) ++ [hexDigitChar (n % 16)]

/-- The `{:x}` rendering of a `Nat`: lower-case hexadecimal, big-endian,
`0` for zero. -/
def hexChars (n : Nat) : List Char :=
  if n = 0 then ['0'] else hexCharsAux n n

/-- Read a hexadecimal digit string back into a number (a left inverse of
`hexChars`). -/
def fromHex (l : List Char) : Nat :=
  l.foldl (fun acc c => acc * 16 + hexVal c) 0

/-- Whether `c` can occur in the `{:x}` rendering of a number. -/
def isHexChar (c : Char) : Bool :=
  ('0' ≤ c && c ≤ '9') || ('a' ≤ c && c ≤ 'f')

/-- The characters of `format!("{0:x}-{1:x}.{2:x}", len, secs, nanos)`. -/
def tagChars (len secs nanos : Nat) : List Char :=
  hexChars len ++ '-' :: (hexChars secs ++ '.' :: hexChars nanos)

/-- `entity_tag` (static_file.rs lines 204-215): a weak tag from the file
length and the modification time split into whole seconds and the
sub-second nanosecond remainder.  `modified.duration_since(UNIX_EPOCH)`
fails exactly when the modification time is before the epoch, and then no
tag is produced. -/
def entity_tag (m : Metadata) : Option EntityTag :=
  m.modified.bind (fun mt =>
    if 0 ≤ mt then
      some { weak := true,
             tag := tagChars m.len (mt.toNat / 1000000000) (mt.toNat % 1000000000) }
    else none)

/-- `hyper::header::IfNoneMatch`: the `*` wildcard or a list of tags. -/
inductive IfNoneMatch where
  | any
  | items (tags : List EntityTag)

/-- `HttpDate::from(SystemTime)`: whole seconds since the epoch, rounding
toward minus infinity (the sub-second part is dropped). -/
def httpDateOf (t : Int) : Int :=
  Int.fdiv t 1000000000

/-- `not_modified` (static_file.rs lines 184-202).  Only the `Items` form of
If-None-Match is matched by the `if let`; every other shape of that header
(including the `*` wildcard) falls through to the If-Modified-Since check,
and a metadata error in either branch yields `false` via `unwrap_or`. -/
def not_modified (m : Metadata) (inm : Option IfNoneMatch) (ims : Option Int) : Bool :=
  match inm with
  | some (IfNoneMatch.items its) =>
    ((entity_tag m).map (fun etag => its.contains etag)).getD false
  | _ =>
    match ims with
    | some t =>
      (m.modified.map (fun modified => decide (httpDateOf modified ≤ t))).getD false
    | none => false

/-- `hyper::header::Encoding`. -/
inductive Encoding where
  | chunked
  | brotli
  | gzip
  | deflate
  | compress
  | identity
  | trailers
  | ext (s : String)
  deriving DecidableEq

/-- `encoding_extension` (static_file.rs lines 162-168). -/
def encoding_extension (e : Encoding) : Option String :=
  match e with
  | Encoding.gzip => some ".gz"
  | Encoding.brotli => some ".br"
  | _ => none

/-- `hyper::header::QualityItem<Encoding>`: `quality` is hyper's `Quality`,
the q-value times 1000 (`1.0` is 1000). -/
structure QualityItem where
  item : Encoding
  quality : Nat
  deriving DecidableEq

/-- Stable insertion of an item into a quality-ascending list. -/
def insertAscByQuality (x : QualityItem) : List QualityItem → List QualityItem
  | [] => [x]
  | y :: ys =>
    if x.quality < y.quality then x :: y :: ys else y :: insertAscByQuality x ys

/-- `Vec::sort_by_key(|i| i.quality)`: a stable sort that puts the LOWEST
quality first (Rust's sort is ascending). -/
def sortAscByQuality : List QualityItem → List QualityItem
  | [] => []
  | x :: xs => insertAscByQuality x (sortAscByQuality xs)

/-- Rust `Path::file_stem` on a bare file name: the part before the last
dot, except that a lone leading dot marks no extension at all. -/
def fileStem (name : String) : String :=
  match splitOnChar '.' name.data with
  | [] => name
  | [_] => name
  | [[], _] => name
  | parts => String.mk (List.intercalate ['.'] parts.dropLast)

/-- Rust `Path::with_extension` on a bare file name: the stem, then a dot
and the new extension (the old extension is REPLACED, not appended to). -/
def with_extension (name ext : String) : String :=
  if ext = "" then fileStem name else fileStem name ++ "." ++ ext

/-- The candidate list built inside `check_compressed_files` (static_file.rs
lines 138-160): filter the Accept-Encoding items down to the supported
encodings, sort them by `sort_by_key(|i| i.quality)` (ascending), and map
each to `path.with_extension(ext)` paired with its encoding.  The function
as written does not compile (its call site passes one argument instead of
two, the `match` has no `None` arm, `Path.exists(path)` is not a method
call, and `.take(1)` leaves an iterator where an `Option` is expected), so
only this candidate construction is expressible. -/
def check_compressed_candidates (path : String) (items : List QualityItem) :
    List (String × Encoding) :=
  let supported := [Encoding.gzip, Encoding.brotli]
  let accept_items := items.filter (fun i => supported.contains i.item)
  (sortAscByQuality accept_items).filterMap
    (fun i => (encoding_extension i.item).map
      (fun ext => (with_extension path ext, i.item)))

/-- The extension-to-MIME table of the `mime_guess` crate, restricted to the
extensions exercised by this repository's assets and their compressed
siblings (`mime_guess` maps `gz` to `application/gzip`). -/
def mimeTable : List (String × String) :=
  [("html", "text/html"), ("htm", "text/html"), ("txt", "text/plain"),
   ("css", "text/css"), ("js", "application/javascript"),
   ("gz", "application/gzip")]

/-- Rust `Path::extension` on a bare file name: the part after the last
dot, if any; a name with no dot, or whose only dot leads, has none. -/
def extensionOf (name : String) : Option String :=
  match splitOnChar '.' name.data with
  | [] => none
  | [_] => none
  | [[], _] => none
  | parts => some (String.mk (parts.getLastD []))

/-- `mime_guess::guess_mime_type_opt`: look the file extension up in the
MIME table. -/
def guess_mime_type_opt (name : String) : Option String :=
  (extensionOf name).bind (fun e => mimeTable.lookup e)

/-- `mime_for_path` (static_file.rs lines 228-230): the guessed MIME type,
or `application/octet-stream` when the extension is not recognized. -/
def mime_for_path (name : String) : String :=
  (guess_mime_type_opt name).getD "application/octet-stream"

/-- `std::io::ErrorKind`, restricted to a representative set of variants. -/
inductive ErrorKind where
  | notFound
  | permissionDenied
  | connectionRefused
  | interrupted
  | unexpectedEof
  | wouldBlock
  | other
  deriving DecidableEq

/-- `error_status` (static_file.rs lines 247-253): `NotFound` to 404,
`PermissionDenied` to 403, every other kind to 500. -/
def error_status (e : ErrorKind) : Nat :=
  match e with
  | ErrorKind.notFound => 404
  | ErrorKind.permissionDenied => 403
  | _ => 500

/-- A response header this subsystem can emit. -/
inductive HeaderVal where
  | contentType (m : String)
  | eTag (t : EntityTag)
  | lastModified (d : Int)
  deriving DecidableEq

/-- The response descriptor: status code, optional body bytes, headers. -/
structure Response where
  status : Nat
  body : Option (List Nat)
  headers : List HeaderVal
  deriving DecidableEq

/-- Modelled from the spec: `create_response` (from
`helpers::http::response`, which is not under `src/`) builds a response
with the given status; when a body is supplied it carries the body bytes
and their Content-Type header, and no validator headers are emitted
either way. -/
def create_response (status : Nat) (body : Option (List Nat × String)) : Response :=
  { status := status
    body := body.map (fun b => b.1)
    headers :=
      match body with
      | some (_, m) => [HeaderVal.contentType m]
      | none => [] }

/-- `append_headers` (static_file.rs lines 217-226): add the ETag when one
can be computed and the Last-Modified date (`modified.into()` truncates to
`HttpDate` seconds) when the metadata has a modification time. -/
def append_headers (res : Response) (m : Metadata) : Response :=
  let res1 :=
    match entity_tag m with
    | some tag => { res with headers := res.headers ++ [HeaderVal.eTag tag] }
    | none => res
  match m.modified with
  | some modified =>
    { res1 with headers := res1.headers ++ [HeaderVal.lastModified (httpDateOf modified)] }
  | none => res1

/-- `FileResult` (static_file.rs lines 94-97). -/
inductive FileResult where
  | notModified
  | contents (data : List Nat) (meta : Metadata)

/-- The `then` continuation of `create_file_response` (static_file.rs lines
122-135): contents become a 200 with body, MIME type and validator
headers; a not-modified result becomes a bare 304 with no body (and
`append_headers` is not called); an error becomes a bodyless response
whose status is `error_status` of the error
(`err.into_handler_error().with_status(status)`). -/
def respond (mime_type : String) : Except ErrorKind FileResult → Response
  | Except.ok (FileResult.contents data meta) =>
    append_headers (create_response 200 (some (data, mime_type))) meta
  | Except.ok FileResult.notModified => create_response 304 none
  | Except.error e => { status := error_status e, body := none, headers := [] }

/-- `FileHandler` (static_file.rs lines 30-34): the configured single-file
path. -/
structure FileHandlerCfg where
  path : List String
  deriving DecidableEq

/-- `FileHandler::new` (static_file.rs lines 36-46): stores the given path
verbatim. -/
def fileHandlerNew (p : List String) : FileHandlerCfg :=
  { path := p }

/-- `FileHandler::handle` (static_file.rs lines 88-92): the path handed to
`create_file_response` is the configured path; the request's URL segments
are never consulted and no normalization runs on this route. -/
def fileHandlerOpenedPath (cfg : FileHandlerCfg) (_requestParts : List String) :
    List String :=
  cfg.path

theorem normStep_mem {x : String} {acc : List String} {c : Component}
    (h : x ∈ normStep acc c) : x ∈ acc ∨ Component.normal x = c := by
  cases c with
  | normal y =>
    simp only [normStep] at h
    rcases List.mem_append.mp h with h' | h'
    · exact Or.inl h'
    · simp only [List.mem_singleton] at h'
      exact Or.inr (by rw [h'])
  | parentDir =>
    left
    simp only [normStep] at h
    rw [List.dropLast_eq_take] at h
    exact List.take_subset _ _ h
  | curDir => exact Or.inl h
  | rootDir => exact Or.inl h

theorem mem_foldl_normStep (P : String → Prop) :
    ∀ (cs : List Component) (acc : List String),
      (∀ s ∈ acc, P s) → (∀ s, Component.normal s ∈ cs → P s) →
      ∀ s ∈ cs.foldl normStep acc, P s := by
  intro cs
  induction cs with
  | nil => intro acc hacc _ s hs; exact hacc s hs
  | cons c ct ih =>
    intro acc hacc hcs s hs
    refine ih (normStep acc c) ?_ (fun t ht => hcs t (List.mem_cons_of_mem _ ht)) s hs
    intro x hx
    rcases normStep_mem hx with h' | h'
    · exact hacc x h'
    · exact hcs x (h' ▸ List.mem_cons_self _ _)

theorem normal_not_mem_leading {s : String} {l : List Char} :
    Component.normal s ∈ leadingComponents l → False := by
  unfold leadingComponents
  split
  · simp
  · split <;> simp

theorem normal_mem_componentsOfPath {s : String} {l : List Char}
    (h : Component.normal s ∈ componentsOfPath l) :
    s ≠ "" ∧ s ≠ "." ∧ s ≠ ".." := by
  unfold componentsOfPath at h
  rcases List.mem_append.mp h with h' | h'
  · exact absurd h' (fun hl => normal_not_mem_leading hl)
  · obtain ⟨t, -, ht⟩ := List.mem_filterMap.mp h'
    unfold tokenToComponent at ht
    split_ifs at ht with h0 h1 h2
    · simp at ht
    · simp only [Option.some.injEq, Component.normal.injEq] at ht
      subst ht
      refine ⟨fun he => h0 ?_, fun he => h1 ?_, fun he => h2 ?_⟩
      · simpa using congrArg String.data he
      · simpa using congrArg String.data he
      · simpa using congrArg String.data he

/-- C1 (amended): for every root and every sequence of decoded URL segments,
the path `FileSystemHandler::handle` builds is the root followed by a
residue in which no component is a parent reference (`..`), a current-dir
reference (`.`) or empty — so the joined path never leaves the root,
though it may equal the root itself.  No rejection is involved:
`fileSystemHandlerPath` is total and the handler has no failure branch
before `create_file_response`. -/
theorem fileSystemHandlerPath_stays_in_root :
    ∀ (root parts : List String), ∃ rel : List String,
      fileSystemHandlerPath root parts = root ++ rel ∧
      rel.all (fun s => !(s == "" || s == "." || s == "..")) = true := by
  intro root parts
  refine ⟨normalize_path (componentsOfPath (pathOfParts parts)), rfl, ?_⟩
  rw [List.all_eq_true]
  intro s hs
  have h3 := mem_foldl_normStep (fun s => s ≠ "" ∧ s ≠ "." ∧ s ≠ "..")
    (componentsOfPath (pathOfParts parts)) [] (by simp)
    (fun t ht => normal_mem_componentsOfPath ht) s hs
  simp only [Bool.or_eq_true, beq_iff_eq, Bool.not_eq_true', Bool.or_eq_false_iff]
  refine ⟨⟨?_, ?_⟩, ?_⟩ <;> simp [h3.1, h3.2.1, h3.2.2]

/-- C1 (counterexample): the segment sequence consisting of the single
decoded segment `..` resolves to the root itself, which is not a strict
descendant of the root — and the code rejects nothing (path resolution is
a total function, so the claimed PathTraversal rejection does not exist). -/
theorem fileSystemHandlerPath_dotdot_is_root :
    fileSystemHandlerPath ["srv", "static"] [".."] = ["srv", "static"] ∧
    strictDescendant ["srv", "static"]
        (fileSystemHandlerPath ["srv", "static"] [".."]) = false := by
  constructor
  · rfl
  · rfl

/-- C2 (amended): path resolution is total and never signals a failure: a
parent reference met on an empty accumulator is a silent no-op
(`PathBuf::pop` returns `false` and changes nothing), and no parent
reference survives folding into the resolved output; null bytes are not
inspected at all. -/
theorem normalize_path_never_fails :
    (∀ (cs : List Component),
      normalize_path (Component.parentDir :: cs) = normalize_path cs) ∧
    ∀ (parts : List String),
      ((normalize_path (componentsOfPath (pathOfParts parts))).all
        (fun s => !(s == ".."))) = true := by
  constructor
  · intro cs; rfl
  · intro parts
    rw [List.all_eq_true]
    intro s hs
    have h3 := mem_foldl_normStep (fun s => s ≠ "" ∧ s ≠ "." ∧ s ≠ "..")
      (componentsOfPath (pathOfParts parts)) [] (by simp)
      (fun t ht => normal_mem_componentsOfPath ht) s hs
    simp [h3.2.2]

/-- C2 (counterexample): both failure conditions the claim lists — a fold
that would pop below the accumulator's start (`..` as the only segment)
and a decoded null byte in the input — produce an ordinary resolved path;
no PathTraversal failure exists in the code. -/
theorem resolution_succeeds_on_failure_conditions :
    fileSystemHandlerPath ["r"] [".."] = ["r"] ∧
    fileSystemHandlerPath ["r"] ["a\u0000b"] = ["r", "a\u0000b"] := by
  exact ⟨rfl, rfl⟩

theorem hexVal_hexDigitChar : ∀ d : Nat, d < 16 → hexVal (hexDigitChar d) = d := by
  decide

theorem isHexChar_hexDigitChar : ∀ d : Nat, d < 16 → isHexChar (hexDigitChar d) = true := by
  decide

theorem fromHex_concat (l : List Char) (c : Char) :
    fromHex (l ++ [c]) = fromHex l * 16 + hexVal c := by
  simp [fromHex, List.foldl_append]

theorem fromHex_hexCharsAux :
    ∀ (fuel n : Nat), n ≤ fuel → fromHex (hexCharsAux fuel n) = n := by
  intro fuel
  induction fuel with
  | zero =>
    intro n hn
    have h0 : n = 0 := Nat.le_zero.mp hn
    subst h0
    rfl
  | succ f ih =>
    intro n hn
    by_cases h0 : n = 0
    · subst h0; rfl
    · have hdiv : n / 16 ≤ f :=
        Nat.le_of_lt_succ
          (Nat.lt_of_lt_of_le (Nat.div_lt_self (Nat.pos_of_ne_zero h0) (by norm_num)) hn)
      have hrec := ih (n / 16) hdiv
      simp only [hexCharsAux, if_neg h0]
      rw [fromHex_concat, hrec, hexVal_hexDigitChar _ (Nat.mod_lt _ (by norm_num))]
      omega

theorem fromHex_hexChars (n : Nat) : fromHex (hexChars n) = n := by
  unfold hexChars
  split
  · rename_i h0; subst h0; rfl
  · exact fromHex_hexCharsAux n n (Nat.le_refl n)

theorem hexChars_inj {a b : Nat} (h : hexChars a = hexChars b) : a = b := by
  have h' := congrArg fromHex h
  rwa [fromHex_hexChars, fromHex_hexChars] at h'

theorem mem_hexCharsAux_isHex :
    ∀ (fuel n : Nat) (c : Char), c ∈ hexCharsAux fuel n → isHexChar c = true := by
  intro fuel
  induction fuel with
  | zero => intro n c hc; simp [hexCharsAux] at hc
  | succ f ih =>
    intro n c hc
    by_cases h0 : n = 0
    · subst h0; simp [hexCharsAux] at hc
    · simp only [hexCharsAux, if_neg h0] at hc
      rcases List.mem_append.mp hc with h | h
      · exact ih _ _ h
      · simp only [List.mem_singleton] at h
        subst h
        exact isHexChar_hexDigitChar _ (Nat.mod_lt _ (by norm_num))

theorem mem_hexChars_isHex {c : Char} {n : Nat} (h : c ∈ hexChars n) :
    isHexChar c = true := by
  unfold hexChars at h
  split at h
  · simp only [List.mem_singleton] at h; subst h; decide
  · exact mem_hexCharsAux_isHex _ _ _ h

theorem splitAtSep (P : Char → Bool) :
    ∀ (xs xs' rest rest' : List Char) (y y' : Char),
      (∀ c ∈ xs, P c = true) → (∀ c ∈ xs', P c = true) →
      P y = false → P y' = false →
      xs ++ y :: rest = xs' ++ y' :: rest' →
      xs = xs' ∧ y = y' ∧ rest = rest' := by
  intro xs
  induction xs with
  | nil =>
    intro xs' rest rest' y y' hxs hxs' hy hy' heq
    cases xs' with
    | nil =>
      simp only [List.nil_append, List.cons.injEq] at heq
      exact ⟨rfl, heq.1, heq.2⟩
    | cons a t =>
      simp only [List.nil_append, List.cons_append, List.cons.injEq] at heq
      have hPa := hxs' a (List.mem_cons_self _ _)
      rw [← heq.1] at hPa
      rw [hy] at hPa
      simp at hPa
  | cons x xt ih =>
    intro xs' rest rest' y y' hxs hxs' hy hy' heq
    cases xs' with
    | nil =>
      simp only [List.cons_append, List.nil_append, List.cons.injEq] at heq
      have hPx := hxs x (List.mem_cons_self _ _)
      rw [heq.1] at hPx
      rw [hy'] at hPx
      simp at hPx
    | cons a t =>
      simp only [List.cons_append, List.cons.injEq] at heq
      obtain ⟨h1, h2, h3⟩ := ih t rest rest' y y'
        (fun c hc => hxs c (List.mem_cons_of_mem _ hc))
        (fun c hc => hxs' c (List.mem_cons_of_mem _ hc)) hy hy' heq.2
      exact ⟨by rw [heq.1, h1], h2, h3⟩

theorem tagChars_inj {l1 s1 n1 l2 s2 n2 : Nat}
    (h : tagChars l1 s1 n1 = tagChars l2 s2 n2) :
    l1 = l2 ∧ s1 = s2 ∧ n1 = n2 := by
  unfold tagChars at h
  obtain ⟨h1, -, h2⟩ := splitAtSep isHexChar _ _ _ _ '-' '-'
    (fun c hc => mem_hexChars_isHex hc) (fun c hc => mem_hexChars_isHex hc)
    (by decide) (by decide) h
  obtain ⟨h3, -, h4⟩ := splitAtSep isHexChar _ _ _ _ '.' '.'
    (fun c hc => mem_hexChars_isHex hc) (fun c hc => mem_hexChars_isHex hc)
    (by decide) (by decide) h2
  exact ⟨hexChars_inj h1, hexChars_inj h3, hexChars_inj h4⟩

/-- C3 (counterexample): with an If-None-Match wildcard, a file that has a
computable entity tag, and no If-Modified-Since header, the evaluator
yields Fresh (`false`), although the claim requires NotModified for the
wildcard. -/
theorem wildcard_if_none_match_falls_through :
    (entity_tag { len := 4, modified := some 1000000000 }).isSome = true ∧
    not_modified { len := 4, modified := some 1000000000 }
      (some IfNoneMatch.any) none = false := by
  exact ⟨by decide, rfl⟩

/-- C3 (amended): when If-None-Match carries a list of tags, the evaluation
yields NotModified exactly when the computed entity tag is one of the
listed tags, and If-Modified-Since is then ignored; the wildcard form,
however, is not treated as a match — it behaves exactly as an absent
If-None-Match and falls through to the If-Modified-Since check. -/
theorem if_none_match_items_semantics :
    ∀ (m : Metadata) (ts : List EntityTag) (ims ims' : Option Int),
      not_modified m (some (IfNoneMatch.items ts)) ims
        = not_modified m (some (IfNoneMatch.items ts)) ims' ∧
      (not_modified m (some (IfNoneMatch.items ts)) ims = true
        ↔ ∃ e, entity_tag m = some e ∧ e ∈ ts) ∧
      not_modified m (some IfNoneMatch.any) ims = not_modified m none ims := by
  intro m ts ims ims'
  refine ⟨rfl, ?_, rfl⟩
  cases h : entity_tag m with
  | none => simp [not_modified, h]
  | some e => simp [not_modified, h]

/-- C5: with If-None-Match absent and If-Modified-Since present, the
evaluation yields NotModified exactly when the modification time,
truncated to whole HTTP-date seconds, is not strictly later than the
header's timestamp; with both conditional headers absent it yields
Fresh. -/
theorem if_modified_since_semantics :
    (∀ (len : Nat) (mt t : Int),
      not_modified { len := len, modified := some mt } none (some t) = true
        ↔ httpDateOf mt ≤ t) ∧
    ∀ (m : Metadata), not_modified m none none = false := by
  constructor
  · intro len mt t
    simp [not_modified]
  · intro m; rfl

/-- C6: the entity tag is a pure function of the metadata — equal
(size, modified) pairs give the identical tag — and it is injective:
whenever two metadata values that both yield a tag differ in size or in
modification time, the tags differ. -/
theorem entity_tag_deterministic_injective :
    ∀ (m1 m2 : Metadata) (t1 t2 : EntityTag),
      entity_tag m1 = some t1 → entity_tag m2 = some t2 →
      ((m1.len = m2.len ∧ m1.modified = m2.modified) → t1 = t2) ∧
      (¬(m1.len = m2.len ∧ m1.modified = m2.modified) → t1 ≠ t2) := by
  intro m1 m2 t1 t2 h1 h2
  cases hm1 : m1.modified with
  | none => rw [entity_tag, hm1] at h1; simp at h1
  | some mt1 =>
  cases hm2 : m2.modified with
  | none => rw [entity_tag, hm2] at h2; simp at h2
  | some mt2 =>
  rw [entity_tag, hm1] at h1
  rw [entity_tag, hm2] at h2
  simp only [Option.some_bind] at h1 h2
  split_ifs at h1 with hpos1
  split_ifs at h2 with hpos2
  simp only [Option.some.injEq] at h1 h2
  subst h1
  subst h2
  constructor
  · rintro ⟨hl, hm⟩
    injection hm with hmm
    rw [hl, hmm]
  · intro hne heq
    simp only [EntityTag.mk.injEq, true_and] at heq
    obtain ⟨hlen, hsecs, hnanos⟩ := tagChars_inj heq
    have htn : mt1.toNat = mt2.toNat := by
      have ha := Nat.div_add_mod mt1.toNat 1000000000
      have hb := Nat.div_add_mod mt2.toNat 1000000000
      rw [hsecs, hnanos] at ha
      rw [← ha, hb]
    have hval : mt1 = mt2 := by
      have hc := congrArg (fun n : Nat => (n : Int)) htn
      simpa [Int.toNat_of_nonneg hpos1, Int.toNat_of_nonneg hpos2] using hc
    exact hne ⟨hlen, by rw [hval]⟩

/-- C6 (witness): the tags of two files that share a modification time but
differ in length are distinct. -/
theorem entity_tag_injective_witness :
    EntityTag.mk true ['1', '-', '0', '.', '0']
      ≠ EntityTag.mk true ['2', '-', '0', '.', '0'] :=
  (entity_tag_deterministic_injective { len := 1, modified := some 0 }
      { len := 2, modified := some 0 } _ _ (by decide) (by decide)).2
    (by decide)

/-- C4 (code_bug evaluation): at Accept-Encoding `gzip;q=1.0, br;q=0.5`
with base file `doc.html`, the candidate list the code builds is ordered
lowest quality first (brotli before the higher-quality gzip) and names the
siblings `doc..br` / `doc..gz` (`with_extension` replaces the `html`
extension instead of appending the suffix), neither of which is the
`base + suffix` sibling the claim requires. -/
theorem check_compressed_divergence :
    check_compressed_candidates "doc.html"
        [{ item := Encoding.gzip, quality := 1000 },
         { item := Encoding.brotli, quality := 500 }]
      = [("doc..br", Encoding.brotli), ("doc..gz", Encoding.gzip)] ∧
    ("doc..gz" == "doc.html.gz") = false ∧
    ("doc..br" == "doc.html.br") = false := by
  exact ⟨by decide, by decide, by decide⟩

/-- C7: loader failures map to response statuses exactly as NotFound to
404, PermissionDenied to 403 and every other I/O failure to 500, and the
error arm of the response continuation carries exactly that status. -/
theorem error_status_mapping :
    error_status ErrorKind.notFound = 404 ∧
    error_status ErrorKind.permissionDenied = 403 ∧
    (∀ (e : ErrorKind), e ≠ ErrorKind.notFound → e ≠ ErrorKind.permissionDenied →
      error_status e = 500) ∧
    ∀ (mt : String) (e : ErrorKind),
      (respond mt (Except.error e)).status = error_status e := by
  refine ⟨rfl, rfl, ?_, ?_⟩
  · intro e h1 h2
    cases e
    · exact absurd rfl h1
    · exact absurd rfl h2
    all_goals rfl
  · intro mt e; rfl

/-- C8: the NotModified arm of the response continuation produces status
304 with no body and emits no headers at all — in particular no ETag and
no Last-Modified validator. -/
theorem not_modified_response_shape :
    ∀ (mt : String),
      respond mt (Except.ok FileResult.notModified)
        = { status := 304, body := none, headers := [] } := by
  intro mt
  rfl

/-- C9 (code_bug evaluation): guessing the MIME type from the compressed
variant's file name uses the final extension, so `doc.html.gz` is reported
as `application/gzip`, never as `text/html`; the base name `doc.html` does
give `text/html`, and an unrecognized extension falls back to
`application/octet-stream`. -/
theorem mime_guess_variant_divergence :
    mime_for_path "doc.html.gz" = "application/gzip" ∧
    ("application/gzip" == "text/html") = false ∧
    mime_for_path "doc.html" = "text/html" ∧
    mime_for_path "file.unknownext" = "application/octet-stream" := by
  exact ⟨by decide, by decide, by decide, by decide⟩

/-- C10: in single-file mode the opened path is exactly the
operator-configured path: it does not depend on the request's URL
segments, and no resolution or normalization is applied on this route. -/
theorem fileHandler_ignores_request_path :
    ∀ (p parts parts' : List String),
      fileHandlerOpenedPath (fileHandlerNew p) parts = p ∧
      fileHandlerOpenedPath (fileHandlerNew p) parts
        = fileHandlerOpenedPath (fileHandlerNew p) parts' := by
  intro p parts parts'
  exact ⟨rfl, rfl⟩

end StaticFile
